import Mathlib

/-!
Shallow embedding of the two C programs `pi_bbp_mpi.c` and `pi_mpi.c` of
this repository, together with proofs about them.

Modelling choices:

* GMP arbitrary-precision floats (`mpf_t`) are modelled as exact rationals
  `ℚ`.  The places where the C program explicitly limits the number of
  decimal digits — the `gmp_sprintf "%.*Ff"` conversions used for the MPI
  transport and for digit rendering — are modelled faithfully as rounding
  the exact value to the printed number of fractional decimal digits
  (C `printf`-family semantics: the value is rounded, to nearest, to the
  requested precision).
* C `unsigned long` arithmetic (the `8 * k` computation feeding
  `mpf_div_ui`) is modelled with an explicit `% 2 ^ 64` (LP64).
* The MPI message exchange of `aggregate_results` is modelled by the value
  the coordinator ends up with: its own local sum plus, for
  `src = 1, …, size - 1` in order, the value parsed back (`mpf_set_str`,
  base 10) from the decimal string each worker produced with `gmp_sprintf`.
* `double` arithmetic of `pi_mpi.c` is modelled in exact rationals; the
  claim about that program only concerns its exact-arithmetic behaviour.
-/

namespace PiBBP

/-- Modulus of C `unsigned long` arithmetic (LP64). -/
def ulongMod : ℕ := 2 ^ 64

/-- Floor of a rational, written with the concrete `num / den` integer
division so that it evaluates by `decide`; equal to `Int.floor` (see
`ratFloor_eq_floor`). -/
def ratFloor (q : ℚ) : ℤ := q.num / q.den

/-- Half-up rounding to an integer; models the rounding that
`gmp_sprintf "%.*Ff"` performs on the exact value when producing a fixed
number of decimal digits. -/
def qround (q : ℚ) : ℤ := ratFloor (q + 1 / 2)

/-- Value denoted by the string `gmp_sprintf "%.*Ff" p x` : the operand `x`
rounded to `p` fractional decimal digits. -/
def sprintfFf (x : ℚ) (p : ℕ) : ℚ := (qround (x * 10 ^ p) : ℚ) / 10 ^ p

/-- C `calculate_precision` : `(unsigned long)(digits * 3.5 + 64)`.
For the digit counts a C `int` can hold the `double` computation
`digits * 3.5 + 64` is exact up to the final truncating cast, which yields
`7 * digits / 2 + 64` in integer arithmetic. -/
def calculate_precision (digits : ℕ) : ℕ := 7 * digits / 2 + 64

/-- C `calculate_num_terms` : `digits + 10`. -/
def calculate_num_terms (digits : ℕ) : ℕ := digits + 10

/-- C `compute_bbp_term` : the k-th BBP term, computed exactly as the C
code does: `k8 = 8 * k` in `unsigned long` arithmetic (wrapping modulo
`2 ^ 64`), four `mpf_div_ui` divisions by `k8 + 1, k8 + 4, k8 + 5, k8 + 6`
(each sum again an `unsigned long`), three subtractions, and a final
division by `16 ^ k`. -/
def compute_bbp_term (k : ℕ) : ℚ :=
  let k8 : ℕ := 8 * k % ulongMod
  let power16 : ℚ := (16 : ℚ) ^ k
  let term1 : ℚ := 4 / (((k8 + 1) % ulongMod : ℕ) : ℚ)
  let term2 : ℚ := 2 / (((k8 + 4) % ulongMod : ℕ) : ℚ)
  let term3 : ℚ := 1 / (((k8 + 5) % ulongMod : ℕ) : ℚ)
  let term4 : ℚ := 1 / (((k8 + 6) % ulongMod : ℕ) : ℚ)
  (term1 - term2 - term3 - term4) / power16

/-- The list of divisors handed to `mpf_div_ui` by `compute_bbp_term`,
with the `unsigned long` wraparound of `8 * k` made explicit. -/
def bbpDivisors (k : ℕ) : List ℕ :=
  let k8 : ℕ := 8 * k % ulongMod
  [(k8 + 1) % ulongMod, (k8 + 4) % ulongMod, (k8 + 5) % ulongMod, (k8 + 6) % ulongMod]

/-- The mathematical k-th BBP term as the spec writes it:
`(1/16^k) × [4/(8k+1) − 2/(8k+4) − 1/(8k+5) − 1/(8k+6)]` over exact
(unbounded) integers. -/
def bbpTermSpec (k : ℕ) : ℚ :=
  (1 / 16 ^ k) *
    (4 / (8 * (k : ℚ) + 1) - 2 / (8 * (k : ℚ) + 4)
      - 1 / (8 * (k : ℚ) + 5) - 1 / (8 * (k : ℚ) + 6))

/-- Index sequence of the C loop `for (k = start; k < numTerms; k += size)`
in `compute_local_sum`, written with explicit fuel; `numTerms` steps of
fuel are enough whenever `size ≥ 1`, which the MPI environment guarantees
for the group size. -/
def strideAux : ℕ → ℕ → ℕ → ℕ → List ℕ
  | 0, _, _, _ => []
  | fuel + 1, start, size, numTerms =>
    if start < numTerms then start :: strideAux fuel (start + size) size numTerms else []

/-- The term indices owned by `rank` in `compute_local_sum`'s strided loop. -/
def ownedTerms (rank size numTerms : ℕ) : List ℕ :=
  strideAux numTerms rank size numTerms

/-- C `compute_local_sum` : starts from `mpf_set_ui(local_sum, 0)` and adds
`compute_bbp_term k` for every owned `k`, in loop order. -/
def compute_local_sum (rank size numTerms : ℕ) : ℚ :=
  (ownedTerms rank size numTerms).foldl (fun acc k => acc + compute_bbp_term k) 0

/-- Transport buffer size allocated in `aggregate_results` : `digits + 100`. -/
def bufferSize (digits : ℕ) : ℕ := digits + 100

/-- Sender side of the big-number transport: the value denoted by the
string `gmp_sprintf(buffer, "%.*Ff", digits + 20, local_sum)`. -/
def serialize (x : ℚ) (digits : ℕ) : ℚ := sprintfFf x (digits + 20)

/-- Receiver side of the big-number transport: `mpf_set_str(received_sum,
buffer, 10)` parses the decimal string back; on the exact-rational model
the value denoted by the string is recovered unchanged. -/
def deserialize (s : ℚ) : ℚ := s

/-- C `aggregate_results`, as seen by the coordinator (rank 0): start from
its own local sum, then for `src = 1, …, size − 1` in order receive the
worker's serialized sum, parse it, and add it. -/
def aggregate_results (size numTerms digits : ℕ) : ℚ :=
  (List.range (size - 1)).foldl
    (fun pi src0 =>
      pi + deserialize (serialize (compute_local_sum (src0 + 1) size numTerms) digits))
    (compute_local_sum 0 size numTerms)

/-- Number of characters of the decimal expansion of a natural number
(`"0"` has one character). -/
def intDigitCount (m : ℕ) : ℕ := Nat.log 10 m + 1

/-- Length, terminating NUL included, of the string produced by
`gmp_sprintf(buffer, "%.*Ff", digits + 20, x)` for `x ≥ 0` : the decimal
digits of the integer part of the rounded value, the radix point,
`digits + 20` fractional digits, and the NUL byte. -/
def serializedLength (x : ℚ) (digits : ℕ) : ℕ :=
  intDigitCount ((qround (x * 10 ^ (digits + 20))).toNat / 10 ^ (digits + 20))
    + 1 + (digits + 20) + 1

/-- One token of `print_pi`'s output stream: a fractional digit, the blank
printed after every block of ten digits, the `"\n  "` printed after every
fifty digits, or the final end-of-line. -/
inductive PrintTok where
  | digit : ℕ → PrintTok
  | blank : PrintTok
  | lineBreak : PrintTok
  | endLine : PrintTok
deriving DecidableEq, Repr

/-- Whether a token of `print_pi`'s output is a fractional digit. -/
def PrintTok.isDigitTok : PrintTok → Bool
  | .digit _ => true
  | _ => false

/-- The `count` decimal digits (most significant first) of `v`, as printed
by `gmp_sprintf` after the `"0."` prefix; `v` is the rounded fraction
scaled by `10 ^ count`. -/
def decChars (v count : ℕ) : List ℕ :=
  (List.range count).map (fun i => v / 10 ^ (count - 1 - i) % 10)

/-- Value of a most-significant-first decimal digit list. -/
def ofDigits10 (ds : List ℕ) : ℕ := ds.foldl (fun a d => 10 * a + d) 0

/-- Separator tokens `print_pi` emits after the `i`-th digit (0-based):
a blank after every tenth digit unless it is the last, and additionally
`"\n  "` after every fiftieth. -/
def sepAfter (i len : ℕ) : List PrintTok :=
  if (i + 1) % 10 = 0 ∧ i + 1 < len then
    PrintTok.blank :: (if (i + 1) % 50 = 0 then [PrintTok.lineBreak] else [])
  else []

/-- The integer `gmp_sprintf(str, "%.*Ff", digits, frac)` scales the
fraction `frac = pi - 3` to: the rounded value of `(pi - 3) * 10 ^ digits`.
Its decimal digits, zero-padded to `digits` places, are the characters
following `"0."` in `str`. -/
def fracScaled (pi : ℚ) (digits : ℕ) : ℤ := qround ((pi - 3) * 10 ^ digits)

/-- C `print_pi`, output after the `"3."` header: subtract 3, format the
fraction with `digits` fractional decimal digits, skip the `"0."` prefix,
cap the length at `digits`, and print the digits with the block
separators, then a final end-of-line. -/
def print_pi (pi : ℚ) (digits : ℕ) : List PrintTok :=
  let s : List ℕ := decChars (fracScaled pi digits).toNat digits
  let len : ℕ := min s.length digits
  ((List.range len).flatMap fun i => PrintTok.digit (s.getD i 0) :: sepAfter i len)
    ++ [PrintTok.endLine]

/-- Modelled from the spec: the digit list the renderer would emit if it
truncated — rather than rounded — the extra fractional digits of the final
result ("truncating any extra digits produced by the precision margin").
Used only to compare the spec's words against `print_pi`. -/
def specTruncDigits (pi : ℚ) (digits : ℕ) : List ℕ :=
  decChars (ratFloor ((pi - 3) * 10 ^ digits)).toNat digits

/-- Observable outcome of one process running `main` of `pi_bbp_mpi.c`. -/
structure MainResult where
  exitCode : ℕ
  printedUsage : Bool
  computed : Bool
deriving DecidableEq, Repr

/-- C `main` of `pi_bbp_mpi.c`, per process: `digits` defaults to 100; if a
command-line argument is present its `atoi` value replaces the default and
a value `< 1` makes the process print the usage message (rank 0 only) and
return 1 before any computation; otherwise the process computes and
returns 0. -/
def piMain (rank : ℕ) (arg : Option ℤ) : MainResult :=
  match arg with
  | some d =>
    if d < 1 then
      { exitCode := 1, printedUsage := rank == 0, computed := false }
    else
      { exitCode := 0, printedUsage := false, computed := true }
  | none => { exitCode := 0, printedUsage := false, computed := true }

end PiBBP

namespace PiMPI

/-- Number of sub-intervals in `pi_mpi.c` : `long long n = 1000000000`. -/
def n : ℕ := 1000000000

/-- C `local_start = (n / size) * rank` (integer division). -/
def local_start (rank size : ℕ) : ℕ := n / size * rank

/-- C `local_end = (n / size) * (rank + 1)`, overridden to `n` for the last
rank (`rank == size - 1`). -/
def local_end (rank size : ℕ) : ℕ :=
  if rank = size - 1 then n else n / size * (rank + 1)

/-- The block of interval indices `[local_start, local_end)` a rank sums. -/
def block (rank size : ℕ) : Finset ℕ :=
  Finset.Ico (local_start rank size) (local_end rank size)

/-- The midpoint-rule integrand sample of `pi_mpi.c` at interval `i`, in
exact arithmetic: `x = (i + 0.5) * h` with `h = 1/n`, contributing
`4 / (1 + x²)`. -/
def midpointTerm (i : ℕ) : ℚ := 4 / (1 + (((i : ℚ) + 1 / 2) / n) ^ 2)

/-- A rank's contribution in `pi_mpi.c`, in exact arithmetic: the sum of
the integrand over its block, multiplied by `h = 1/n` at the end
(`local_sum *= h`). -/
def local_sum (rank size : ℕ) : ℚ :=
  (∑ i ∈ block rank size, midpointTerm i) * (1 / n)

end PiMPI

namespace PiBBP

theorem ratFloor_eq_floor (q : ℚ) : ratFloor q = ⌊q⌋ := Rat.floor_def.symm

theorem qround_eq (q : ℚ) : qround q = ⌊q + 1 / 2⌋ := by
  rw [qround, ratFloor_eq_floor]

theorem qround_le (q : ℚ) : (qround q : ℚ) ≤ q + 1 / 2 := by
  rw [qround_eq]; exact Int.floor_le _

theorem lt_qround (q : ℚ) : q - 1 / 2 < (qround q : ℚ) := by
  rw [qround_eq]
  have h := Int.sub_one_lt_floor (q + 1 / 2)
  linarith

theorem qround_nonneg {q : ℚ} (hq : 0 ≤ q) : 0 ≤ qround q := by
  rw [qround_eq]
  exact Int.le_floor.2 (by push_cast; linarith)

theorem mem_strideAux_lt {size numTerms : ℕ} :
    ∀ {fuel start m : ℕ}, m ∈ strideAux fuel start size numTerms → m < numTerms := by
  intro fuel
  induction fuel with
  | zero => intro start m h; simp [strideAux] at h
  | succ fuel ih =>
    intro start m h
    rw [strideAux] at h
    split at h
    · rcases List.mem_cons.1 h with rfl | h
      · assumption
      · exact ih h
    · simp at h

theorem mem_strideAux_ge {size numTerms : ℕ} :
    ∀ {fuel start m : ℕ}, m ∈ strideAux fuel start size numTerms → start ≤ m := by
  intro fuel
  induction fuel with
  | zero => intro start m h; simp [strideAux] at h
  | succ fuel ih =>
    intro start m h
    rw [strideAux] at h
    split at h
    · rcases List.mem_cons.1 h with rfl | h
      · exact le_refl m
      · exact le_trans (Nat.le_add_right _ _) (ih h)
    · simp at h

theorem strideAux_pairwise {size numTerms : ℕ} (hs : 0 < size) :
    ∀ fuel start, (strideAux fuel start size numTerms).Pairwise (· < ·) := by
  intro fuel
  induction fuel with
  | zero => intro start; simp [strideAux]
  | succ fuel ih =>
    intro start
    rw [strideAux]
    split
    · refine List.Pairwise.cons (fun m hm => ?_) (ih _)
      have h1 := mem_strideAux_ge hm
      omega
    · exact List.Pairwise.nil

theorem strideAux_nodup {size numTerms : ℕ} (hs : 0 < size) (fuel start : ℕ) :
    (strideAux fuel start size numTerms).Nodup :=
  (strideAux_pairwise hs fuel start).imp Nat.ne_of_lt

theorem mem_strideAux {size numTerms : ℕ} (hs : 0 < size) :
    ∀ (fuel start m : ℕ), numTerms ≤ start + fuel →
      (m ∈ strideAux fuel start size numTerms ↔ ∃ j, m = start + j * size ∧ m < numTerms) := by
  intro fuel
  induction fuel with
  | zero =>
    intro start m hfuel
    simp only [strideAux, List.not_mem_nil, false_iff]
    rintro ⟨j, rfl, hlt⟩
    omega
  | succ fuel ih =>
    intro start m hfuel
    rw [strideAux]
    by_cases h : start < numTerms
    · rw [if_pos h, List.mem_cons, ih (start + size) m (by omega)]
      constructor
      · rintro (rfl | ⟨j, rfl, hlt⟩)
        · exact ⟨0, by simp, h⟩
        · exact ⟨j + 1, by rw [Nat.succ_mul]; omega, hlt⟩
      · rintro ⟨j, rfl, hlt⟩
        cases j with
        | zero => left; omega
        | succ j => right; exact ⟨j, by rw [Nat.succ_mul]; omega, hlt⟩
    · rw [if_neg h]
      simp only [List.not_mem_nil, false_iff]
      rintro ⟨j, rfl, hlt⟩
      omega

theorem mem_ownedTerms {rank size numTerms m : ℕ} (hs : 0 < size) (hr : rank < size) :
    m ∈ ownedTerms rank size numTerms ↔ m < numTerms ∧ m % size = rank := by
  rw [ownedTerms, mem_strideAux hs numTerms rank m (by omega)]
  constructor
  · rintro ⟨j, rfl, hlt⟩
    refine ⟨hlt, ?_⟩
    rw [Nat.add_mul_mod_self_right, Nat.mod_eq_of_lt hr]
  · rintro ⟨hlt, hmod⟩
    refine ⟨m / size, ?_, hlt⟩
    rw [← hmod]
    exact (Nat.mod_add_div' m size).symm

/-- Claim C2: for every `group_size ≥ 1` and `term_count ≥ 0`, the strided
index sets owned by the ranks of `[0, group_size)` are pairwise disjoint
and their union is exactly `{0, …, term_count − 1}` : every index below
`term_count` is owned by at least one rank, every owned index is below
`term_count`, and no index is owned by two distinct ranks. -/
theorem stride_partition (size numTerms m r₁ r₂ : ℕ) (hs : 1 ≤ size)
    (h1 : r₁ < size) (h2 : r₂ < size) :
    (m < numTerms ↔ ∃ r, r < size ∧ m ∈ ownedTerms r size numTerms) ∧
    (m ∈ ownedTerms r₁ size numTerms → m ∈ ownedTerms r₂ size numTerms → r₁ = r₂) := by
  constructor
  · constructor
    · intro hm
      refine ⟨m % size, Nat.mod_lt m hs, ?_⟩
      rw [mem_ownedTerms hs (Nat.mod_lt m hs)]
      exact ⟨hm, rfl⟩
    · rintro ⟨r, hr, hmem⟩
      exact mem_strideAux_lt hmem
  · intro hm1 hm2
    have e1 := (mem_ownedTerms hs h1).1 hm1
    have e2 := (mem_ownedTerms hs h2).1 hm2
    omega

/-- Witness for C2 at `group_size = 2`, `term_count = 3`, index 1,
ranks 0 and 1. -/
theorem stride_partition_witness :
    (1 < 3 ↔ ∃ r, r < 2 ∧ 1 ∈ ownedTerms r 2 3) ∧
    (1 ∈ ownedTerms 0 2 3 → 1 ∈ ownedTerms 1 2 3 → 0 = 1) :=
  stride_partition 2 3 1 0 1 (by decide) (by decide) (by decide)

end PiBBP

namespace PiBBP

theorem k8_eq (k : ℕ) : 8 * k % ulongMod = 8 * (k % 2 ^ 61) := by
  have h : ulongMod = 8 * 2 ^ 61 := by norm_num [ulongMod]
  rw [h, Nat.mul_mod_mul_left]

theorem k8_add_lt (k j : ℕ) (hj : j ≤ 6) : 8 * (k % 2 ^ 61) + j < ulongMod := by
  have h : k % 2 ^ 61 < 2 ^ 61 := Nat.mod_lt k (by norm_num)
  have h2 : ulongMod = 8 * 2 ^ 61 := by norm_num [ulongMod]
  omega

theorem compute_bbp_term_eq_core (k : ℕ) :
    compute_bbp_term k =
      (4 / (8 * ((k % 2 ^ 61 : ℕ) : ℚ) + 1) - 2 / (8 * ((k % 2 ^ 61 : ℕ) : ℚ) + 4)
        - 1 / (8 * ((k % 2 ^ 61 : ℕ) : ℚ) + 5) - 1 / (8 * ((k % 2 ^ 61 : ℕ) : ℚ) + 6))
        / 16 ^ k := by
  simp only [compute_bbp_term, k8_eq,
    Nat.mod_eq_of_lt (k8_add_lt k 1 (by norm_num)),
    Nat.mod_eq_of_lt (k8_add_lt k 4 (by norm_num)),
    Nat.mod_eq_of_lt (k8_add_lt k 5 (by norm_num)),
    Nat.mod_eq_of_lt (k8_add_lt k 6 (by norm_num))]
  push_cast
  ring

theorem bbp_core_nonneg (x : ℚ) (hx : 0 ≤ x) :
    0 ≤ 4 / (8 * x + 1) - 2 / (8 * x + 4) - 1 / (8 * x + 5) - 1 / (8 * x + 6) := by
  have h1 : (0 : ℚ) < 8 * x + 1 := by linarith
  have e2 : 2 / (8 * x + 4) ≤ 2 / (8 * x + 1) := by gcongr; linarith
  have e5 : 1 / (8 * x + 5) ≤ 1 / (8 * x + 1) := by gcongr; linarith
  have e6 : 1 / (8 * x + 6) ≤ 1 / (8 * x + 1) := by gcongr; linarith
  have e0 : 4 / (8 * x + 1) - 2 / (8 * x + 1) - 1 / (8 * x + 1) - 1 / (8 * x + 1) = 0 := by
    ring
  linarith

theorem bbp_core_le (x : ℚ) (hx : 0 ≤ x) :
    4 / (8 * x + 1) - 2 / (8 * x + 4) - 1 / (8 * x + 5) - 1 / (8 * x + 6) ≤ 4 := by
  have h1 : (0 : ℚ) < 8 * x + 1 := by linarith
  have e1 : 4 / (8 * x + 1) ≤ 4 := div_le_self (by norm_num) (by linarith)
  have e2 : 0 ≤ 2 / (8 * x + 4) := by positivity
  have e5 : 0 ≤ 1 / (8 * x + 5) := by positivity
  have e6 : 0 ≤ 1 / (8 * x + 6) := by positivity
  linarith

theorem compute_bbp_term_nonneg (k : ℕ) : 0 ≤ compute_bbp_term k := by
  rw [compute_bbp_term_eq_core]
  exact div_nonneg (bbp_core_nonneg _ (Nat.cast_nonneg _)) (by positivity)

theorem compute_bbp_term_le (k : ℕ) : compute_bbp_term k ≤ 4 * (1 / 16 : ℚ) ^ k := by
  rw [compute_bbp_term_eq_core]
  have hc := bbp_core_le ((k % 2 ^ 61 : ℕ) : ℚ) (Nat.cast_nonneg _)
  have hp : (0 : ℚ) < 16 ^ k := by positivity
  calc (4 / (8 * ((k % 2 ^ 61 : ℕ) : ℚ) + 1) - 2 / (8 * ((k % 2 ^ 61 : ℕ) : ℚ) + 4)
        - 1 / (8 * ((k % 2 ^ 61 : ℕ) : ℚ) + 5) - 1 / (8 * ((k % 2 ^ 61 : ℕ) : ℚ) + 6))
        / 16 ^ k
      ≤ 4 / 16 ^ k := by gcongr
    _ = 4 * (1 / 16 : ℚ) ^ k := by rw [one_div_pow, mul_one_div]

/-- Claim C3 (amended): whenever the `unsigned long` product `8 * k` does
not wrap (in particular for every index the driver can pass, where
`k < 2^31`), `compute_bbp_term` computes exactly
`(1/16^k) × [4/(8k+1) − 2/(8k+4) − 1/(8k+5) − 1/(8k+6)]`, and the four
integer denominators `8k+1, 8k+4, 8k+5, 8k+6` are strictly positive, so no
division by zero is reachable for `k ≥ 0`. -/
theorem compute_bbp_term_correct (k : ℕ) (hk : 8 * k < 2 ^ 64) :
    compute_bbp_term k = bbpTermSpec k ∧
      0 < 8 * k + 1 ∧ 0 < 8 * k + 4 ∧ 0 < 8 * k + 5 ∧ 0 < 8 * k + 6 := by
  refine ⟨?_, by omega, by omega, by omega, by omega⟩
  have hk61 : k < 2 ^ 61 := by omega
  rw [compute_bbp_term_eq_core, Nat.mod_eq_of_lt hk61, bbpTermSpec]
  ring

/-- Witness for C3 (amended) at `k = 1`. -/
theorem compute_bbp_term_correct_witness :
    compute_bbp_term 1 = bbpTermSpec 1 ∧
      0 < 8 * 1 + 1 ∧ 0 < 8 * 1 + 4 ∧ 0 < 8 * 1 + 5 ∧ 0 < 8 * 1 + 6 :=
  compute_bbp_term_correct 1 (by norm_num)

/-- Counterexample to claim C3 as stated: the claim quantifies over every
non-negative integer `k` accepted by the evaluator (an `unsigned long`),
but at `k = 2^61` the product `8 * k` wraps to 0 modulo `2^64`, so the
divisors handed to `mpf_div_ui` are `1, 4, 5, 6` and the computed value is
`(4/1 − 2/4 − 1/5 − 1/6) / 16^k`, not the mathematical term. -/
theorem compute_bbp_term_overflow : compute_bbp_term (2 ^ 61) ≠ bbpTermSpec (2 ^ 61) := by
  intro h
  rw [compute_bbp_term_eq_core, Nat.mod_self, bbpTermSpec, one_div_mul_eq_div] at h
  have hp : ((16 : ℚ) ^ (2 ^ 61 : ℕ)) ≠ 0 := pow_ne_zero _ (by norm_num)
  rw [div_eq_div_iff hp hp] at h
  have hAB := mul_right_cancel₀ hp h
  push_cast at hAB
  norm_num at hAB

end PiBBP

namespace PiBBP

/-- Claim C9: for every `unsigned long` k — including values where `8 * k`
wraps modulo `2^64` — the four divisors computed from `k8 = 8 * k` are all
nonzero; indeed `k8` is always a multiple of 8 below `2^64`, so the
divisors are congruent to 1, 4, 5, 6 modulo 8, and `mpf_div_ui` never
receives a zero divisor. -/
theorem bbpDivisors_pos (k : ℕ) (hk : k < 2 ^ 64) :
    (∀ dv ∈ bbpDivisors k, 0 < dv) ∧ (bbpDivisors k).map (· % 8) = [1, 4, 5, 6] := by
  have h1 := Nat.mod_eq_of_lt (k8_add_lt k 1 (by norm_num))
  have h4 := Nat.mod_eq_of_lt (k8_add_lt k 4 (by norm_num))
  have h5 := Nat.mod_eq_of_lt (k8_add_lt k 5 (by norm_num))
  have h6 := Nat.mod_eq_of_lt (k8_add_lt k 6 (by norm_num))
  refine ⟨?_, ?_⟩
  · intro dv hdv
    simp only [bbpDivisors, k8_eq, h1, h4, h5, h6, List.mem_cons, List.not_mem_nil,
      or_false] at hdv
    rcases hdv with rfl | rfl | rfl | rfl <;> omega
  · simp only [bbpDivisors, k8_eq, h1, h4, h5, h6, List.map_cons, List.map_nil,
      Nat.mul_add_mod]

/-- Witness for C9 at `k = 2^63`, where `8 * k` wraps to 0. -/
theorem bbpDivisors_pos_witness :
    (∀ dv ∈ bbpDivisors (2 ^ 63), 0 < dv) ∧
      (bbpDivisors (2 ^ 63)).map (· % 8) = [1, 4, 5, 6] :=
  bbpDivisors_pos (2 ^ 63) (by norm_num)

theorem foldl_add_eq (f : ℕ → ℚ) : ∀ (l : List ℕ) (acc : ℚ),
    l.foldl (fun a k => a + f k) acc = acc + (l.map f).sum := by
  intro l
  induction l with
  | nil => intro acc; simp
  | cons x xs ih => intro acc; simp [ih, add_assoc]

theorem compute_local_sum_nonneg (rank size numTerms : ℕ) :
    0 ≤ compute_local_sum rank size numTerms := by
  rw [compute_local_sum, foldl_add_eq, zero_add]
  apply List.sum_nonneg
  intro x hx
  rcases List.mem_map.1 hx with ⟨k, hk, rfl⟩
  exact compute_bbp_term_nonneg k

theorem sum_bbp_le (numTerms : ℕ) :
    ∑ k ∈ Finset.range numTerms, compute_bbp_term k ≤ 64 / 15 := by
  calc ∑ k ∈ Finset.range numTerms, compute_bbp_term k
      ≤ ∑ k ∈ Finset.range numTerms, 4 * (1 / 16 : ℚ) ^ k :=
        Finset.sum_le_sum fun k _ => compute_bbp_term_le k
    _ = 4 * ∑ k ∈ Finset.range numTerms, (1 / 16 : ℚ) ^ k := by
        rw [Finset.mul_sum]
    _ ≤ 64 / 15 := by
        have hgeom : ∑ k ∈ Finset.range numTerms, (1 / 16 : ℚ) ^ k =
            ((1 / 16 : ℚ) ^ numTerms - 1) / (1 / 16 - 1) := geom_sum_eq (by norm_num) numTerms
        have hpow : (0 : ℚ) ≤ (1 / 16 : ℚ) ^ numTerms := by positivity
        have he : ((1 / 16 : ℚ) ^ numTerms - 1) / (1 / 16 - 1) =
            16 / 15 * (1 - (1 / 16 : ℚ) ^ numTerms) := by ring
        rw [hgeom, he]
        nlinarith

theorem compute_local_sum_le (rank size numTerms : ℕ) (hs : 0 < size) :
    compute_local_sum rank size numTerms ≤ 64 / 15 := by
  rw [compute_local_sum, foldl_add_eq, zero_add]
  have hnodup : (ownedTerms rank size numTerms).Nodup := strideAux_nodup hs _ _
  rw [← List.sum_toFinset _ hnodup]
  calc ∑ k ∈ (ownedTerms rank size numTerms).toFinset, compute_bbp_term k
      ≤ ∑ k ∈ Finset.range numTerms, compute_bbp_term k := by
        apply Finset.sum_le_sum_of_subset_of_nonneg
        · intro x hx
          rw [List.mem_toFinset] at hx
          exact Finset.mem_range.2 (mem_strideAux_lt hx)
        · intro i _ _
          exact compute_bbp_term_nonneg i
    _ ≤ 64 / 15 := sum_bbp_le numTerms

/-- Claim C6: for every `digit_count ≥ 1` and every worker's local sum, the
serialized decimal string — integer digits, radix point,
`digit_count + 20` fractional digits and the NUL byte — is no longer than
the allocated transport buffer of `digit_count + 100` bytes, so the
`gmp_sprintf` write fits and the numeric payload is never truncated. -/
theorem serialized_fits (rank size numTerms digits : ℕ) (hs : 1 ≤ size) (hd : 1 ≤ digits) :
    serializedLength (compute_local_sum rank size numTerms) digits ≤ bufferSize digits := by
  set S := compute_local_sum rank size numTerms with hS
  have h0 : 0 ≤ S := compute_local_sum_nonneg _ _ _
  have h5 : S ≤ 64 / 15 := compute_local_sum_le _ _ _ hs
  rw [serializedLength, bufferSize, intDigitCount]
  have hpos : (0 : ℚ) < 10 ^ (digits + 20) := by positivity
  have hT1 : (1 : ℚ) ≤ 10 ^ (digits + 20) := by
    calc (1 : ℚ) = 10 ^ 0 := by norm_num
      _ ≤ 10 ^ (digits + 20) := pow_le_pow_right (by norm_num) (by omega)
  have hR : qround (S * 10 ^ (digits + 20)) < ((5 * 10 ^ (digits + 20) : ℕ) : ℤ) := by
    have h1 := qround_le (S * 10 ^ (digits + 20))
    have hmul : (11 / 15 : ℚ) * 10 ^ (digits + 20)
        ≤ (5 - S) * 10 ^ (digits + 20) :=
      mul_le_mul_of_nonneg_right (by linarith) (le_of_lt hpos)
    have hmul2 : (11 / 15 : ℚ) * 1 ≤ (11 / 15) * 10 ^ (digits + 20) :=
      mul_le_mul_of_nonneg_left hT1 (by norm_num)
    have h2 : S * 10 ^ (digits + 20) + 1 / 2 < 5 * 10 ^ (digits + 20) := by nlinarith
    have h3 : (qround (S * 10 ^ (digits + 20)) : ℚ) < ((5 * 10 ^ (digits + 20) : ℕ) : ℚ) := by
      push_cast
      linarith
    exact_mod_cast h3
  have hRnn : 0 ≤ qround (S * 10 ^ (digits + 20)) := qround_nonneg (by positivity)
  have htn : (qround (S * 10 ^ (digits + 20))).toNat < 5 * 10 ^ (digits + 20) :=
    (Int.toNat_lt' (show 5 * 10 ^ (digits + 20) ≠ 0 from
      (by positivity : 0 < 5 * 10 ^ (digits + 20)).ne')).2 hR
  have hdiv : (qround (S * 10 ^ (digits + 20))).toNat / 10 ^ (digits + 20) < 5 :=
    (Nat.div_lt_iff_lt_mul (by positivity)).2 htn
  have hlog : Nat.log 10 ((qround (S * 10 ^ (digits + 20))).toNat / 10 ^ (digits + 20)) = 0 :=
    Nat.log_eq_zero_iff.2 (Or.inl (by omega))
  rw [hlog]
  omega

/-- Witness for C6 at `rank = 1`, `group_size = 2`, `term_count = 3`,
`digit_count = 1`. -/
theorem serialized_fits_witness :
    serializedLength (compute_local_sum 1 2 3) 1 ≤ bufferSize 1 :=
  serialized_fits 1 2 3 1 (by decide) (by decide)

/-- Claim C8: a rank at or beyond `term_count` owns no term indices, its
local sum is exactly the additive identity 0, and adding its serialized
partial sum at the coordinator leaves any accumulated value unchanged. -/
theorem idle_rank_zero (rank size numTerms digits : ℕ) (acc : ℚ)
    (hgt : numTerms < size) (hr : numTerms ≤ rank) :
    ownedTerms rank size numTerms = [] ∧
    compute_local_sum rank size numTerms = 0 ∧
    acc + deserialize (serialize (compute_local_sum rank size numTerms) digits) = acc := by
  have he : ownedTerms rank size numTerms = [] := by
    rw [ownedTerms]
    cases numTerms with
    | zero => rfl
    | succ n => rw [strideAux, if_neg (by omega)]
  have h2 : compute_local_sum rank size numTerms = 0 := by
    rw [compute_local_sum, he]
    rfl
  refine ⟨he, h2, ?_⟩
  have hz : deserialize (serialize 0 digits) = 0 := by
    rw [serialize, sprintfFf, deserialize, qround_eq]
    norm_num
  rw [h2, hz, add_zero]

/-- Witness for C8 at `rank = 5`, `group_size = 8`, `term_count = 3`,
`digit_count = 2`, accumulator 7. -/
theorem idle_rank_zero_witness :
    ownedTerms 5 8 3 = [] ∧
    compute_local_sum 5 8 3 = 0 ∧
    (7 : ℚ) + deserialize (serialize (compute_local_sum 5 8 3) 2) = 7 :=
  idle_rank_zero 5 8 3 2 7 (by decide) (by decide)

/-- Claim C4: round-trip law of the big-number transport — deserializing
(via base-10 `mpf_set_str`) the decimal string produced by serializing a
partial sum with `digit_count + 20` fractional digits yields a value equal
to the original to at least `digit_count` fractional digits (formalized:
the round-trip error is smaller than one unit in the `digit_count`-th
fractional decimal place). -/
theorem serialize_roundtrip (x : ℚ) (digits : ℕ) (hd : 1 ≤ digits) :
    |deserialize (serialize x digits) - x| < (1 / 10 : ℚ) ^ digits := by
  rw [deserialize, serialize, sprintfFf]
  have hpos : (0 : ℚ) < 10 ^ (digits + 20) := by positivity
  set y := x * 10 ^ (digits + 20) with hy
  have h1 : (qround y : ℚ) ≤ y + 1 / 2 := qround_le y
  have h2 : y - 1 / 2 < (qround y : ℚ) := lt_qround y
  have hx : x = y / 10 ^ (digits + 20) := by
    rw [hy, mul_div_cancel_right₀ _ (ne_of_gt hpos)]
  have heq : (qround y : ℚ) / 10 ^ (digits + 20) - x
      = ((qround y : ℚ) - y) / 10 ^ (digits + 20) := by
    rw [hx, div_sub_div_same]
  rw [heq, abs_div, abs_of_pos hpos]
  have habs : |(qround y : ℚ) - y| ≤ 1 / 2 := abs_le.2 ⟨by linarith, by linarith⟩
  have hlt : (1 / 2 : ℚ) / 10 ^ (digits + 20) < (1 / 10) ^ digits := by
    rw [one_div_pow, div_lt_div_iff hpos (by positivity), pow_add]
    have hp : (0 : ℚ) < 10 ^ digits := by positivity
    have h20 : ((10 : ℚ) ^ 20) = 100000000000000000000 := by norm_num
    rw [h20]
    nlinarith
  calc |(qround y : ℚ) - y| / 10 ^ (digits + 20)
      ≤ (1 / 2) / 10 ^ (digits + 20) := by gcongr
    _ < (1 / 10 : ℚ) ^ digits := hlt

/-- Witness for C4 at `x = 1/3`, `digit_count = 1`. -/
theorem serialize_roundtrip_witness :
    |deserialize (serialize (1 / 3 : ℚ) 1) - 1 / 3| < (1 / 10 : ℚ) ^ 1 :=
  serialize_roundtrip (1 / 3) 1 (by decide)

end PiBBP

namespace PiBBP

theorem decChars_length (v count : ℕ) : (decChars v count).length = count := by
  simp [decChars]

theorem decChars_succ (v count : ℕ) :
    decChars v (count + 1) = decChars (v / 10) count ++ [v % 10] := by
  rw [decChars, decChars, List.range_succ, List.map_append]
  congr 1
  · apply List.map_congr_left
    intro i hi
    rw [List.mem_range] at hi
    rw [Nat.div_div_eq_div_mul]
    have he : 10 * 10 ^ (count - 1 - i) = 10 ^ (count + 1 - 1 - i) := by
      rw [← pow_succ']
      congr 1
      omega
    rw [← he, Nat.mul_comm]
  · simp

theorem ofDigits10_append_last (ds : List ℕ) (d : ℕ) :
    ofDigits10 (ds ++ [d]) = 10 * ofDigits10 ds + d := by
  rw [ofDigits10, ofDigits10, List.foldl_append]
  rfl

theorem ofDigits10_decChars : ∀ count v : ℕ, v < 10 ^ count →
    ofDigits10 (decChars v count) = v := by
  intro count
  induction count with
  | zero =>
    intro v hv
    norm_num at hv
    simp [decChars, ofDigits10, hv]
  | succ c ih =>
    intro v hv
    have hdiv : v / 10 < 10 ^ c := by
      refine (Nat.div_lt_iff_lt_mul (by norm_num)).2 ?_
      rw [← pow_succ]
      exact hv
    rw [decChars_succ, ofDigits10_append_last, ih (v / 10) hdiv]
    omega

theorem sepAfter_no_digit (i len : ℕ) :
    (sepAfter i len).filter PrintTok.isDigitTok = [] := by
  rw [sepAfter]
  split_ifs <;> simp [PrintTok.isDigitTok]

theorem filter_digits_flatMap (g : ℕ → ℕ) (len : ℕ) :
    ∀ l : List ℕ,
      (l.flatMap fun i => PrintTok.digit (g i) :: sepAfter i len).filter PrintTok.isDigitTok
        = l.map fun i => PrintTok.digit (g i) := by
  intro l
  induction l with
  | nil => rfl
  | cons x xs ih =>
    rw [List.flatMap_cons, List.filter_append, ih, List.filter_cons]
    simp only [PrintTok.isDigitTok, if_pos]
    rw [sepAfter_no_digit]
    rfl

theorem decChars_getD (v count i : ℕ) (hi : i < count) :
    (decChars v count).getD i 0 = v / 10 ^ (count - 1 - i) % 10 := by
  rw [decChars, List.getD_eq_getElem _ _ (by simpa using hi)]
  simp

end PiBBP

namespace PiBBP

/-- Claim C5 (amended): under `3 ≤ pi` and provided the rounded fraction
stays below 1 (`fracScaled pi digits < 10 ^ digits`), `print_pi` strips the
integer part 3 and emits exactly `digit_count` fractional decimal digits —
the digits of `(pi − 3) · 10^digits` rounded (not truncated) to the
nearest integer — interleaved with the block separators (a blank after
every 10 digits, a line break after every 50): the digit tokens of the
output are exactly the `digit_count` decimal digits of the rounded
fraction, whose value they reconstruct. -/
theorem print_pi_spec (pi : ℚ) (digits : ℕ) (h3 : 3 ≤ pi)
    (hlt : fracScaled pi digits < 10 ^ digits) :
    (print_pi pi digits).filter PrintTok.isDigitTok
        = (decChars (fracScaled pi digits).toNat digits).map PrintTok.digit
    ∧ ((print_pi pi digits).filter PrintTok.isDigitTok).length = digits
    ∧ ofDigits10 (decChars (fracScaled pi digits).toNat digits)
        = (fracScaled pi digits).toNat := by
  have hv : (fracScaled pi digits).toNat < 10 ^ digits := by
    have hlt2 : fracScaled pi digits < ((10 ^ digits : ℕ) : ℤ) := by exact_mod_cast hlt
    exact (Int.toNat_lt' (by positivity : (0:ℕ) < 10 ^ digits).ne').2 hlt2
  have hfilter : (print_pi pi digits).filter PrintTok.isDigitTok
      = (decChars (fracScaled pi digits).toNat digits).map PrintTok.digit := by
    simp only [print_pi, decChars_length, min_self]
    rw [List.filter_append]
    rw [filter_digits_flatMap (fun i => (decChars (fracScaled pi digits).toNat digits).getD i 0)
      digits (List.range digits)]
    have hclose : ([PrintTok.endLine].filter PrintTok.isDigitTok) = [] := rfl
    rw [hclose, List.append_nil]
    conv_rhs => rw [decChars, List.map_map]
    apply List.map_congr_left
    intro i hi
    rw [List.mem_range] at hi
    simp only [Function.comp]
    rw [decChars_getD _ _ _ hi]
  refine ⟨hfilter, ?_, ofDigits10_decChars digits _ hv⟩
  rw [hfilter, List.length_map, decChars_length]

/-- Witness for C5 (amended) at `pi = 3.1416`, `digit_count = 3`. -/
theorem print_pi_spec_witness :
    (print_pi (3 + 1416 / 10000) 3).filter PrintTok.isDigitTok
        = (decChars (fracScaled (3 + 1416 / 10000) 3).toNat 3).map PrintTok.digit
    ∧ ((print_pi (3 + 1416 / 10000) 3).filter PrintTok.isDigitTok).length = 3
    ∧ ofDigits10 (decChars (fracScaled (3 + 1416 / 10000) 3).toNat 3)
        = (fracScaled (3 + 1416 / 10000) 3).toNat :=
  print_pi_spec (3 + 1416 / 10000) 3 (by norm_num)
    (by rw [fracScaled, qround_eq]; norm_num)

/-- Counterexample to claim C5 as stated: the claim says the renderer
truncates the extra fractional digits, but `gmp_sprintf "%.*Ff"` rounds.
At `pi = 3.1416` with `digit_count = 3` the renderer emits the digits
`1 4 2` (rounded), not the truncation `1 4 1`. -/
theorem print_pi_not_truncating :
    (print_pi (3 + 1416 / 10000) 3).filter PrintTok.isDigitTok
      ≠ (specTruncDigits (3 + 1416 / 10000) 3).map PrintTok.digit := by
  have hq : fracScaled (3 + 1416 / 10000 : ℚ) 3 = 142 := by
    rw [fracScaled, qround_eq]
    norm_num
  have ht : ratFloor (((3 + 1416 / 10000 : ℚ) - 3) * 10 ^ 3) = 141 := by
    rw [ratFloor_eq_floor]
    norm_num
  rw [specTruncDigits, ht]
  simp only [print_pi, hq]
  decide

end PiBBP

namespace PiBBP

theorem filter_rank_zero : ∀ size : ℕ, 1 ≤ size →
    (List.range size).filter (fun r => r == 0) = [0] := by
  intro size
  induction size with
  | zero => intro h; exact absurd h (by norm_num)
  | succ s ih =>
    intro h
    rw [List.range_succ, List.filter_append]
    cases Nat.eq_zero_or_pos s with
    | inl h0 =>
      subst h0
      rfl
    | inr hpos =>
      rw [ih hpos]
      have hne : (List.filter (fun r => r == 0) [s]) = [] := by
        have : (s == 0) = false := by
          simp only [beq_eq_false_iff_ne, ne_eq]
          omega
        simp [List.filter, this]
      rw [hne, List.append_nil]

/-- Claim C7: if the supplied digit count is below 1, every process of the
group returns exit code 1 without computing anything, and the usage
diagnostic is printed by rank 0 only — exactly once across the ranks of
`[0, group_size)`; with a valid digit count every process returns 0. -/
theorem piMain_exit_codes (rank size : ℕ) (arg : Option ℤ) (d : ℤ)
    (ha : arg = some d) (hsize : 1 ≤ size) :
    (d < 1 →
      (piMain rank arg).exitCode = 1 ∧ (piMain rank arg).computed = false ∧
      ((piMain rank arg).printedUsage = true ↔ rank = 0) ∧
      ((List.range size).filter fun r => (piMain r arg).printedUsage) = [0])
    ∧ (1 ≤ d → (piMain rank arg).exitCode = 0 ∧ (piMain rank arg).computed = true) := by
  subst ha
  constructor
  · intro hd
    refine ⟨by simp [piMain, if_pos hd], by simp [piMain, if_pos hd],
      by simp [piMain, if_pos hd], ?_⟩
    simp only [piMain, if_pos hd]
    exact filter_rank_zero size hsize
  · intro hd
    have hneg : ¬ d < 1 := by omega
    exact ⟨by simp [piMain, if_neg hneg], by simp [piMain, if_neg hneg]⟩

/-- Witness for C7 at `rank = 3`, `group_size = 2`, argument `0`. -/
theorem piMain_exit_codes_witness :
    ((0 : ℤ) < 1 →
      (piMain 3 (some 0)).exitCode = 1 ∧ (piMain 3 (some 0)).computed = false ∧
      ((piMain 3 (some 0)).printedUsage = true ↔ 3 = 0) ∧
      ((List.range 2).filter fun r => (piMain r (some 0)).printedUsage) = [0])
    ∧ (1 ≤ (0 : ℤ) → (piMain 3 (some 0)).exitCode = 0 ∧ (piMain 3 (some 0)).computed = true) :=
  piMain_exit_codes 3 2 (some 0) 0 rfl (by decide)

end PiBBP

namespace PiMPI

theorem local_end_le (r size : ℕ) (hr : r < size) : local_end r size ≤ n := by
  rw [local_end]
  split
  · exact le_refl n
  · calc n / size * (r + 1) ≤ n / size * size := Nat.mul_le_mul_left _ (by omega)
      _ ≤ n := Nat.div_mul_le_self n size

theorem end_le_start (r₁ r₂ size : ℕ) (h12 : r₁ < r₂) (h2 : r₂ < size) :
    local_end r₁ size ≤ local_start r₂ size := by
  rw [local_end, local_start, if_neg (by omega : ¬ r₁ = size - 1)]
  exact Nat.mul_le_mul_left _ (by omega)

theorem mem_block_exists (i size : ℕ) (hs : 1 ≤ size) (hi : i < n) :
    ∃ r, r < size ∧ i ∈ block r size := by
  by_cases hq : n / size = 0
  · refine ⟨size - 1, by omega, ?_⟩
    rw [block, Finset.mem_Ico, local_start, local_end, if_pos rfl, hq]
    exact ⟨by omega, hi⟩
  · have hqpos : 0 < n / size := Nat.pos_of_ne_zero hq
    by_cases hbig : i / (n / size) < size - 1
    · refine ⟨i / (n / size), by omega, ?_⟩
      rw [block, Finset.mem_Ico, local_start, local_end, if_neg (by omega)]
      constructor
      · calc n / size * (i / (n / size)) = i / (n / size) * (n / size) := Nat.mul_comm _ _
          _ ≤ i := Nat.div_mul_le_self _ _
      · have hmod := Nat.mod_lt i hqpos
        have hdm := Nat.div_add_mod i (n / size)
        rw [Nat.mul_add, Nat.mul_one]
        omega
    · refine ⟨size - 1, by omega, ?_⟩
      rw [block, Finset.mem_Ico, local_start, local_end, if_pos rfl]
      refine ⟨?_, hi⟩
      calc n / size * (size - 1) ≤ n / size * (i / (n / size)) :=
            Nat.mul_le_mul_left _ (by omega)
        _ = i / (n / size) * (n / size) := Nat.mul_comm _ _
        _ ≤ i := Nat.div_mul_le_self _ _

theorem block_biUnion (size : ℕ) (hs : 1 ≤ size) :
    (Finset.range size).biUnion (fun r => block r size) = Finset.range n := by
  apply Finset.ext
  intro i
  rw [Finset.mem_biUnion, Finset.mem_range]
  constructor
  · rintro ⟨r, hr, hmem⟩
    rw [Finset.mem_range] at hr
    rw [block, Finset.mem_Ico] at hmem
    exact lt_of_lt_of_le hmem.2 (local_end_le r size hr)
  · intro hi
    obtain ⟨r, hr, hmem⟩ := mem_block_exists i size hs hi
    exact ⟨r, Finset.mem_range.2 hr, hmem⟩

theorem block_disjoint (r₁ r₂ size : ℕ) (h1 : r₁ < size) (h2 : r₂ < size) (hne : r₁ ≠ r₂) :
    Disjoint (block r₁ size) (block r₂ size) := by
  have key : ∀ a b, a < b → b < size → Disjoint (block a size) (block b size) := by
    intro a b hab hb
    rw [Finset.disjoint_left]
    intro i hia hib
    rw [block, Finset.mem_Ico] at hia hib
    have := end_le_start a b size hab hb
    omega
  rcases lt_or_gt_of_ne hne with h | h
  · exact key r₁ r₂ h h2
  · exact (key r₂ r₁ h h1).symm

theorem sum_blocks (size : ℕ) (hs : 1 ≤ size) (f : ℕ → ℚ) :
    ∑ r ∈ Finset.range size, ∑ i ∈ block r size, f i = ∑ i ∈ Finset.range n, f i := by
  have hdisj : (↑(Finset.range size) : Set ℕ).PairwiseDisjoint (fun r => block r size) := by
    intro x hx y hy hxy
    simp only [Finset.coe_range, Set.mem_Iio] at hx hy
    exact block_disjoint x y size hx hy hxy
  rw [← block_biUnion size hs, Finset.sum_biUnion hdisj]

/-- Claim C10: in `pi_mpi.c`, for any group size `≥ 1` the block ranges
`[(n/size)·rank, (n/size)·(rank+1))` (with the last rank extended to `n`)
are pairwise disjoint and cover exactly `[0, n)`, so in exact arithmetic
the per-rank midpoint-rule contributions sum to the single-process sum
over all `n` intervals. -/
theorem integration_partition (size r₁ r₂ : ℕ) (f : ℕ → ℚ) (hs : 1 ≤ size)
    (h1 : r₁ < size) (h2 : r₂ < size) (hne : r₁ ≠ r₂) :
    Disjoint (block r₁ size) (block r₂ size)
    ∧ (Finset.range size).biUnion (fun r => block r size) = Finset.range n
    ∧ ∑ r ∈ Finset.range size, ∑ i ∈ block r size, f i = ∑ i ∈ Finset.range n, f i
    ∧ ∑ r ∈ Finset.range size, local_sum r size = local_sum 0 1 := by
  refine ⟨block_disjoint r₁ r₂ size h1 h2 hne, block_biUnion size hs,
    sum_blocks size hs f, ?_⟩
  have hb : block 0 1 = Finset.range n := by
    rw [block, local_start, local_end, if_pos rfl, Nat.mul_zero, Finset.range_eq_Ico]
  simp only [local_sum]
  rw [← Finset.sum_mul, sum_blocks size hs midpointTerm, hb]

/-- Witness for C10 at `group_size = 3`, ranks 0 and 2, `f i = i`. -/
theorem integration_partition_witness :
    Disjoint (block 0 3) (block 2 3)
    ∧ (Finset.range 3).biUnion (fun r => block r 3) = Finset.range n
    ∧ ∑ r ∈ Finset.range 3, ∑ i ∈ block r 3, ((i : ℚ)) = ∑ i ∈ Finset.range n, ((i : ℚ))
    ∧ ∑ r ∈ Finset.range 3, local_sum r 3 = local_sum 0 1 :=
  integration_partition 3 0 2 (fun i => (i : ℚ)) (by decide) (by decide) (by decide) (by decide)

end PiMPI

namespace PiBBP

set_option maxRecDepth 100000
set_option maxHeartbeats 12000000

/-- Claim C1: with `digit_count = 50` and `group_size = 4`, the
coordinator's aggregation of the four workers' serialized partial sums
(each carried as a decimal string with 70 fractional digits) agrees with
the `group_size = 1` result for the same digit count on all 50 requested
fractional digits: scaling both final values by `10^50` gives the same
integer floor. -/
theorem aggregate_matches_single :
    ratFloor (aggregate_results 4 (calculate_num_terms 50) 50 * 10 ^ 50)
      = ratFloor (aggregate_results 1 (calculate_num_terms 50) 50 * 10 ^ 50) := by
  have h4 : ratFloor (aggregate_results 4 (calculate_num_terms 50) 50 * 10 ^ 50)
      = 314159265358979323846264338327950288419716939937510 := by
    rw [ratFloor_eq_floor]
    norm_num [aggregate_results, compute_local_sum, ownedTerms, strideAux,
      calculate_num_terms, compute_bbp_term, serialize, deserialize, sprintfFf,
      qround_eq, ulongMod, List.range_succ]
  have h1 : ratFloor (aggregate_results 1 (calculate_num_terms 50) 50 * 10 ^ 50)
      = 314159265358979323846264338327950288419716939937510 := by
    rw [ratFloor_eq_floor]
    norm_num [aggregate_results, compute_local_sum, ownedTerms, strideAux,
      calculate_num_terms, compute_bbp_term, serialize, deserialize, sprintfFf,
      qround_eq, ulongMod, List.range_succ]
  rw [h4, h1]

end PiBBP
